import Mathlib

/-!
Verification of the transcript assembly and speaker-resolution pipeline of
the voxdex repository: the segment aligner
(`SpeakerDiarizer.merge_with_transcription` / `_find_dominant_speaker`),
the segment coalescer (`WhisperXTranscriber._merge_segments`), the context
sampler (`SpeakerIdentifier._build_context_text`), the speaker mapping
appliers (`SpeakerIdentifier._apply_speaker_mappings`,
`MockSpeakerIdentifier._apply_speaker_mappings`), the mock namer
(`MockSpeakerIdentifier.identify_speakers`) and the orchestrator's
idempotency check (`TranscriptionPipeline.process_episode` /
`_episode_already_transcribed`).

Timestamps (Python floats) are modelled as rationals; speaker labels and
text are strings.  Python dicts that preserve insertion order are modelled
as association lists.  The Python field name `end` is a Lean keyword and
is rendered as `stop` throughout.
-/

/-- A raw transcription segment: the `TranscriptSegment` dataclass
(`start`, `end`, `text`). -/
structure TranscriptSegment where
  start : ℚ
  stop : ℚ
  text : String
deriving DecidableEq, Repr

/-- A diarization turn: the `SpeakerSegment` dataclass of
`speaker_diarizer.py` (`start`, `end`, `speaker`; the optional confidence
field is never used by the aligner and is omitted). -/
structure SpeakerSegment where
  start : ℚ
  stop : ℚ
  speaker : String
deriving DecidableEq, Repr

/-- A diarized transcript segment: the Python dict
`{"start", "end", "text", "speaker"}` flowing through the pipeline, with
the optional `original_speaker_id` key added by the mapping appliers
(a missing key is modelled as `none`). -/
structure Seg where
  start : ℚ
  stop : ℚ
  text : String
  speaker : String
  original_speaker_id : Option String := none
deriving DecidableEq, Repr

/-! ## Segment Coalescer: `WhisperXTranscriber._merge_segments` -/

/-- Loop body of `_merge_segments`: `cur` is the mutable
`current_segment`, the list argument is the remaining `segments[1:]`.
A segment is absorbed when the speakers coincide and
`segment['start'] - current_segment['end'] < 2.0`. -/
def mergeAux (cur : Seg) : List Seg → List Seg
  | [] => [cur]
  | s :: rest =>
    if cur.speaker = s.speaker ∧ s.start - cur.stop < 2 then
      mergeAux { cur with stop := s.stop, text := cur.text ++ " " ++ s.text } rest
    else
      cur :: mergeAux s rest

/-- Embedding of `WhisperXTranscriber._merge_segments`: merge consecutive segments of
the same speaker whose gap is strictly below the 2.0 second tolerance. -/
def mergeSegments : List Seg → List Seg
  | [] => []
  | s :: rest => mergeAux s rest

/-- The segment obtained by absorbing, in order, every segment of `run`
into `s` (extending `end` and appending the text after a single space),
exactly as the merge branch of `_merge_segments` does. -/
def runMerge (s : Seg) (run : List Seg) : Seg :=
  run.foldl (fun cur t => { cur with stop := t.stop, text := cur.text ++ " " ++ t.text }) s

/-- Joining a list of strings with single spaces. -/
def joinSpace : List String → String
  | [] => ""
  | [t] => t
  | t :: rest => t ++ " " ++ joinSpace rest

theorem mergeAux_head (l : List Seg) : ∀ cur : Seg, ∃ h t, mergeAux cur l = h :: t ∧
    h.speaker = cur.speaker ∧ h.start = cur.start := by
  induction l with
  | nil => exact fun cur => ⟨cur, [], rfl, rfl, rfl⟩
  | cons s rest ih =>
    intro cur
    by_cases hc : cur.speaker = s.speaker ∧ s.start - cur.stop < 2
    · obtain ⟨h, t, he, hsp, hst⟩ := ih { cur with stop := s.stop, text := cur.text ++ " " ++ s.text }
      exact ⟨h, t, by simpa [mergeAux, hc] using he, hsp, hst⟩
    · exact ⟨cur, mergeAux s rest, by simp [mergeAux, hc], rfl, rfl⟩

theorem mergeSegments_mergeAux (l : List Seg) :
    ∀ cur : Seg, mergeSegments (mergeAux cur l) = mergeAux cur l := by
  induction l with
  | nil => intro cur; rfl
  | cons s rest ih =>
    intro cur
    by_cases hc : cur.speaker = s.speaker ∧ s.start - cur.stop < 2
    · simpa [mergeAux, hc] using ih { cur with stop := s.stop, text := cur.text ++ " " ++ s.text }
    · obtain ⟨h, t, he, hsp, hst⟩ := mergeAux_head rest s
      have hcond : ¬(cur.speaker = h.speaker ∧ h.start - cur.stop < 2) := by
        rw [hsp, hst]; exact hc
      have hrec : mergeAux h t = h :: t := by
        have := ih s
        rw [he] at this
        simpa [mergeSegments] using this
      simp only [mergeAux, if_neg hc, he, mergeSegments, if_neg hcond, hrec]

theorem runMerge_append_one (s : Seg) (run : List Seg) (t : Seg) :
    runMerge s (run ++ [t]) =
      { runMerge s run with stop := t.stop, text := (runMerge s run).text ++ " " ++ t.text } := by
  simp [runMerge, List.foldl_append]

theorem mergeAux_chunks (l : List Seg) : ∀ (s : Seg) (run : List Seg),
    ∃ chunks : List (Seg × List Seg),
      chunks.flatMap (fun p => p.1 :: p.2) = (s :: run) ++ l ∧
      mergeAux (runMerge s run) l = chunks.map fun p => runMerge p.1 p.2 := by
  induction l with
  | nil =>
    intro s run
    exact ⟨[(s, run)], by simp, by simp [mergeAux]⟩
  | cons t rest ih =>
    intro s run
    by_cases hc : (runMerge s run).speaker = t.speaker ∧ t.start - (runMerge s run).stop < 2
    · obtain ⟨chunks, hflat, hmap⟩ := ih s (run ++ [t])
      refine ⟨chunks, by simpa using hflat, ?_⟩
      rw [runMerge_append_one] at hmap
      simpa [mergeAux, hc] using hmap
    · obtain ⟨chunks, hflat, hmap⟩ := ih t []
      refine ⟨(s, run) :: chunks, by simpa using hflat, ?_⟩
      have hmap' : mergeAux t rest = chunks.map fun p => runMerge p.1 p.2 := by
        simpa [runMerge] using hmap
      simp [mergeAux, hc, hmap']

theorem joinSpace_append (a b : String) (xs : List String) :
    joinSpace ((a ++ " " ++ b) :: xs) = a ++ " " ++ joinSpace (b :: xs) := by
  cases xs with
  | nil => rfl
  | cons y ys => simp [joinSpace, String.append_assoc]

theorem foldl_joinSpace (xs : List String) : ∀ t : String,
    xs.foldl (fun a b => a ++ " " ++ b) t = joinSpace (t :: xs) := by
  induction xs with
  | nil => intro t; rfl
  | cons x xs ih =>
    intro t
    calc (x :: xs).foldl (fun a b => a ++ " " ++ b) t
        = xs.foldl (fun a b => a ++ " " ++ b) (t ++ " " ++ x) := rfl
      _ = joinSpace ((t ++ " " ++ x) :: xs) := ih _
      _ = t ++ " " ++ joinSpace (x :: xs) := joinSpace_append _ _ _
      _ = joinSpace (t :: x :: xs) := by cases xs <;> rfl

theorem runMerge_text_foldl (run : List Seg) : ∀ s : Seg,
    (runMerge s run).text = run.foldl (fun a t => a ++ " " ++ t.text) s.text := by
  induction run with
  | nil => intro s; rfl
  | cons x run ih =>
    intro s
    simpa [runMerge] using ih { s with stop := x.stop, text := s.text ++ " " ++ x.text }

theorem runMerge_text (s : Seg) (run : List Seg) :
    (runMerge s run).text = joinSpace ((s :: run).map Seg.text) := by
  rw [runMerge_text_foldl]
  calc run.foldl (fun a t => a ++ " " ++ t.text) s.text
      = (run.map Seg.text).foldl (fun a b => a ++ " " ++ b) s.text := by
        rw [List.foldl_map]
    _ = joinSpace (s.text :: run.map Seg.text) := foldl_joinSpace _ _
    _ = joinSpace ((s :: run).map Seg.text) := by simp

/-- C2: the segment coalescer is idempotent (its output is a fixed
point), and each output segment is the merge of a consecutive chunk of
the input (the chunks partition the input in order) whose text is the
single-space-joined concatenation, in original order, of the texts of
the absorbed input segments. -/
theorem mergeSegments_idempotent_and_text (l : List Seg) :
    mergeSegments (mergeSegments l) = mergeSegments l ∧
    ∃ chunks : List (Seg × List Seg),
      chunks.flatMap (fun p => p.1 :: p.2) = l ∧
      mergeSegments l = (chunks.map fun p => runMerge p.1 p.2) ∧
      ∀ p ∈ chunks, (runMerge p.1 p.2).text = joinSpace ((p.1 :: p.2).map Seg.text) := by
  constructor
  · cases l with
    | nil => rfl
    | cons s rest => exact mergeSegments_mergeAux rest s
  · cases l with
    | nil => exact ⟨[], rfl, rfl, by simp⟩
    | cons s rest =>
      obtain ⟨chunks, hflat, hmap⟩ := mergeAux_chunks rest s []
      refine ⟨chunks, by simpa using hflat, ?_, fun p _ => runMerge_text p.1 p.2⟩
      simpa [mergeSegments, runMerge] using hmap

/-- C3 counterexample: two same-speaker segments whose gap is exactly the
2.0 second tolerance are NOT merged by `_merge_segments` (the code merges
only when the gap is strictly below 2.0), contradicting the claim that a
gap of exactly 2.0 must merge. -/
theorem gap_boundary_counterexample :
    mergeSegments [⟨0, 1, "a", "S", none⟩, ⟨3, 4, "b", "S", none⟩] =
      [⟨0, 1, "a", "S", none⟩, ⟨3, 4, "b", "S", none⟩] ∧
    (mergeSegments [⟨0, 1, "a", "S", none⟩, ⟨3, 4, "b", "S", none⟩]).length ≠ 1 := by
  have h : ¬((3:ℚ) - 1 < 2) := by norm_num
  constructor
  · simp [mergeSegments, mergeAux, h]
  · simp [mergeSegments, mergeAux, h]

/-- C3 amended: for two consecutive segments with identical speaker, a
gap exactly equal to the 2.0 second tolerance does NOT merge them (the
inequality is strict); a gap strictly below 2.0 merges them into one run. -/
theorem gap_boundary_amended (a b : Seg) (hsp : a.speaker = b.speaker) :
    (b.start - a.stop = 2 → mergeSegments [a, b] = [a, b]) ∧
    (b.start - a.stop < 2 →
      mergeSegments [a, b] = [{ a with stop := b.stop, text := a.text ++ " " ++ b.text }]) := by
  constructor
  · intro h
    have : ¬(a.speaker = b.speaker ∧ b.start - a.stop < 2) := by
      rintro ⟨-, hlt⟩; rw [h] at hlt; exact lt_irrefl 2 hlt
    simp [mergeSegments, mergeAux, this]
  · intro h
    simp [mergeSegments, mergeAux, hsp, h]

/-- Witness for the amended C3 theorem at concrete inputs: a gap of
exactly 2.0 keeps the two segments separate, and a gap of 1.0 merges. -/
theorem gap_boundary_amended_witness :
    mergeSegments [⟨0, 1, "a", "S", none⟩, ⟨3, 4, "b", "S", none⟩] =
      [⟨0, 1, "a", "S", none⟩, ⟨3, 4, "b", "S", none⟩] ∧
    mergeSegments [⟨0, 1, "a", "S", none⟩, ⟨2, 4, "b", "S", none⟩] =
      [⟨0, 4, "a b", "S", none⟩] := by
  refine ⟨(gap_boundary_amended ⟨0, 1, "a", "S", none⟩ ⟨3, 4, "b", "S", none⟩ rfl).1 (by norm_num), ?_⟩
  have := (gap_boundary_amended ⟨0, 1, "a", "S", none⟩ ⟨2, 4, "b", "S", none⟩ rfl).2 (by norm_num)
  simpa using this

/-! ## Segment Aligner: `SpeakerDiarizer._find_dominant_speaker` and
`merge_with_transcription` -/

/-- First-match lookup in an association list (keys are unique in every
list we build, so this agrees with Python dict lookup). -/
def alookup {β : Type} (k : String) : List (String × β) → Option β
  | [] => none
  | p :: rest => if p.1 = k then some p.2 else alookup k rest

/-- The dict store
`speaker_durations[speaker] = speaker_durations.get(speaker, 0) + d`:
an existing key keeps its position and accumulates, a new key is appended
at the end (insertion-ordered dict semantics). -/
def updateAssoc : List (String × ℚ) → String → ℚ → List (String × ℚ)
  | [], sp, d => [(sp, d)]
  | p :: rest, sp, d =>
    if p.1 = sp then (p.1, p.2 + d) :: rest else p :: updateAssoc rest sp d

/-- Loop body of `_find_dominant_speaker`: accumulate
`overlap_end - overlap_start` for the turn's speaker when
`overlap_start < overlap_end`, where `overlap_start = max(start, dia_seg.start)`
and `overlap_end = min(end, dia_seg.end)`. -/
def durStep (s e : ℚ) (acc : List (String × ℚ)) (t : SpeakerSegment) : List (String × ℚ) :=
  if max s t.start < min e t.stop then
    updateAssoc acc t.speaker (min e t.stop - max s t.start)
  else acc

/-- The `speaker_durations` dict built by `_find_dominant_speaker` over
the diarization turns. -/
def speakerDurations (s e : ℚ) (turns : List SpeakerSegment) : List (String × ℚ) :=
  turns.foldl (durStep s e) []

/-- Python `max(speaker_durations.items(), key=lambda x: x[1])[0]`: the
key of the first entry with maximal value (Python `max` keeps the earlier
element on ties). -/
def maxBySnd : List (String × ℚ) → Option String
  | [] => none
  | p :: rest => some (rest.foldl (fun best q => if best.2 < q.2 then q else best) p).1

/-- Embedding of `SpeakerDiarizer._find_dominant_speaker`: `None` when no turn has
positive overlap with the window, otherwise the first maximal speaker. -/
def findDominantSpeaker (s e : ℚ) (turns : List SpeakerSegment) : Option String :=
  maxBySnd (speakerDurations s e turns)

/-- Embedding of `SpeakerDiarizer.merge_with_transcription`: each transcription
segment keeps its times and text and gains the dominant speaker;
`speaker or "UNKNOWN"` maps both `None` and the empty string to
`"UNKNOWN"` (Python truthiness). -/
def mergeWithTranscription (tsegs : List TranscriptSegment)
    (turns : List SpeakerSegment) : List Seg :=
  tsegs.map fun ts =>
    { start := ts.start, stop := ts.stop, text := ts.text,
      speaker :=
        match findDominantSpeaker ts.start ts.stop turns with
        | none => "UNKNOWN"
        | some sp => if sp = "" then "UNKNOWN" else sp }

/-- Specification-side overlap of one turn with the window `[s,e)`:
`max(0, min(e, turn.end) - max(s, turn.start))`. -/
def overlapAmount (s e : ℚ) (t : SpeakerSegment) : ℚ :=
  max 0 (min e t.stop - max s t.start)

/-- Specification-side accumulated overlap of a speaker: the sum of the
overlap amounts of that speaker's turns. -/
def overlapSum (s e : ℚ) (turns : List SpeakerSegment) (sp : String) : ℚ :=
  ((turns.filter fun t => t.speaker = sp).map (overlapAmount s e)).sum

/-- Index of the first turn of speaker `sp` with positive overlap with
the window (the moment `sp` first enters `speaker_durations`); equals
the list length when there is none. -/
def firstPosIdx (s e : ℚ) (sp : String) : List SpeakerSegment → ℕ
  | [] => 0
  | t :: rest =>
    if t.speaker = sp ∧ max s t.start < min e t.stop then 0
    else firstPosIdx s e sp rest + 1

/-- Specification of the aligner's choice: the returned speaker has
positive accumulated overlap, no speaker accumulates more, and any other
speaker achieving exactly the same accumulated overlap was first
encountered (first accumulated a positive overlap) strictly later. -/
def isChosenSpeaker (s e : ℚ) (turns : List SpeakerSegment) (sp : String) : Prop :=
  0 < overlapSum s e turns sp ∧
  (∀ sp', overlapSum s e turns sp' ≤ overlapSum s e turns sp) ∧
  ∀ sp', sp' ≠ sp → overlapSum s e turns sp' = overlapSum s e turns sp →
    firstPosIdx s e sp turns < firstPosIdx s e sp' turns

theorem alookup_updateAssoc_self (l : List (String × ℚ)) (sp : String) (d : ℚ) :
    alookup sp (updateAssoc l sp d) = some ((alookup sp l).getD 0 + d) := by
  induction l with
  | nil => simp [updateAssoc, alookup]
  | cons p rest ih =>
    by_cases h : p.1 = sp
    · simp [updateAssoc, alookup, h]
    · simp [updateAssoc, alookup, h, ih]

theorem alookup_updateAssoc_other (l : List (String × ℚ)) {sp k : String} (d : ℚ)
    (hk : k ≠ sp) : alookup k (updateAssoc l sp d) = alookup k l := by
  have hsk : ¬ sp = k := fun h => hk h.symm
  induction l with
  | nil => simp [updateAssoc, alookup, hsk]
  | cons p rest ih =>
    by_cases h : p.1 = sp
    · have h1 : ¬ p.1 = k := by rw [h]; exact hsk
      simp [updateAssoc, alookup, h, h1, hsk]
    · by_cases h2 : p.1 = k <;> simp [updateAssoc, alookup, h, h2, hk, ih]

theorem updateAssoc_keys_mem (l : List (String × ℚ)) {sp : String} (d : ℚ)
    (h : sp ∈ l.map Prod.fst) :
    (updateAssoc l sp d).map Prod.fst = l.map Prod.fst := by
  induction l with
  | nil => simp at h
  | cons p rest ih =>
    by_cases hp : p.1 = sp
    · simp [updateAssoc, hp]
    · have : sp ∈ rest.map Prod.fst := by
        rcases (by simpa using h) with h1 | h1
        · exact absurd h1.symm hp
        · simpa using h1
      simp [updateAssoc, hp, ih this]

theorem updateAssoc_keys_not_mem (l : List (String × ℚ)) {sp : String} (d : ℚ)
    (h : sp ∉ l.map Prod.fst) :
    (updateAssoc l sp d).map Prod.fst = l.map Prod.fst ++ [sp] := by
  induction l with
  | nil => simp [updateAssoc]
  | cons p rest ih =>
    have hp : ¬ p.1 = sp := fun he => h (by simp [he])
    have hr : sp ∉ rest.map Prod.fst := fun hm => h (by simp [hm])
    simp [updateAssoc, hp, ih hr]

theorem alookup_mem {β : Type} {l : List (String × β)} {k : String} {v : β}
    (h : alookup k l = some v) : (k, v) ∈ l := by
  induction l with
  | nil => simp [alookup] at h
  | cons p rest ih =>
    by_cases hp : p.1 = k
    · rw [alookup, if_pos hp] at h
      obtain ⟨p1, p2⟩ := p
      simp only [Option.some.injEq] at h
      simp_all
    · rw [alookup, if_neg hp] at h
      exact List.mem_cons_of_mem _ (ih h)

theorem alookup_isSome_iff {β : Type} (l : List (String × β)) (k : String) :
    (alookup k l).isSome ↔ k ∈ l.map Prod.fst := by
  induction l with
  | nil => simp [alookup]
  | cons p rest ih =>
    by_cases hp : p.1 = k
    · simp [alookup, hp]
    · have h2 : ¬ k = p.1 := fun h => hp h.symm
      simp [alookup, hp, ih, h2]

theorem alookup_of_mem_nodup {β : Type} {l : List (String × β)} {k : String} {v : β}
    (hm : (k, v) ∈ l) (hnd : (l.map Prod.fst).Nodup) : alookup k l = some v := by
  induction l with
  | nil => simp at hm
  | cons p rest ih =>
    rw [List.map_cons, List.nodup_cons] at hnd
    rcases List.mem_cons.mp hm with h | h
    · rw [alookup, if_pos (by rw [← h])]
      rw [← h]
    · have hp : ¬ p.1 = k := by
        intro he
        exact hnd.1 (by rw [he]; exact List.mem_map_of_mem Prod.fst h)
      rw [alookup, if_neg hp]
      exact ih h hnd.2

theorem overlapAmount_nonneg (s e : ℚ) (t : SpeakerSegment) : 0 ≤ overlapAmount s e t :=
  le_max_left 0 _

theorem overlapAmount_pos_iff (s e : ℚ) (t : SpeakerSegment) :
    0 < overlapAmount s e t ↔ max s t.start < min e t.stop := by
  rw [overlapAmount, lt_max_iff, sub_pos]
  exact or_iff_right (lt_irrefl 0)

theorem overlapAmount_eq_zero (s e : ℚ) (t : SpeakerSegment)
    (h : ¬ max s t.start < min e t.stop) : overlapAmount s e t = 0 :=
  max_eq_left (sub_nonpos.mpr (not_lt.mp h))

theorem overlapAmount_eq_pos (s e : ℚ) (t : SpeakerSegment)
    (h : max s t.start < min e t.stop) :
    overlapAmount s e t = min e t.stop - max s t.start :=
  max_eq_right (le_of_lt (sub_pos.mpr h))

theorem overlapSum_nonneg (s e : ℚ) (turns : List SpeakerSegment) (sp : String) :
    0 ≤ overlapSum s e turns sp :=
  List.sum_nonneg (by
    intro x hx
    obtain ⟨t, -, ht⟩ := List.mem_map.mp hx
    exact ht ▸ overlapAmount_nonneg s e t)

theorem overlapSum_cons (s e : ℚ) (t : SpeakerSegment) (rest : List SpeakerSegment)
    (sp : String) :
    overlapSum s e (t :: rest) sp =
      (if t.speaker = sp then overlapAmount s e t else 0) + overlapSum s e rest sp := by
  by_cases h : t.speaker = sp <;> simp [overlapSum, List.filter_cons, h]

theorem overlapSum_append_one (s e : ℚ) (l : List SpeakerSegment) (t : SpeakerSegment)
    (sp : String) :
    overlapSum s e (l ++ [t]) sp =
      overlapSum s e l sp + (if t.speaker = sp then overlapAmount s e t else 0) := by
  by_cases h : t.speaker = sp <;> simp [overlapSum, List.filter_append, List.filter_cons, h]

theorem overlapSum_pos_exists {s e : ℚ} {turns : List SpeakerSegment} {sp : String}
    (h : 0 < overlapSum s e turns sp) : ∃ t ∈ turns, t.speaker = sp := by
  by_contra hc
  push_neg at hc
  have hf : turns.filter (fun t => t.speaker = sp) = [] :=
    List.filter_eq_nil_iff.mpr fun t ht => by simp [hc t ht]
  rw [overlapSum, hf] at h
  simp at h

theorem firstPosIdx_le_length (s e : ℚ) (sp : String) :
    ∀ l : List SpeakerSegment, firstPosIdx s e sp l ≤ l.length := by
  intro l
  induction l with
  | nil => exact Nat.le.refl
  | cons t rest ih =>
    show (if t.speaker = sp ∧ max s t.start < min e t.stop then 0
      else firstPosIdx s e sp rest + 1) ≤ rest.length + 1
    by_cases h : t.speaker = sp ∧ max s t.start < min e t.stop
    · rw [if_pos h]; exact Nat.zero_le _
    · rw [if_neg h]; exact Nat.succ_le_succ ih

theorem firstPosIdx_lt_iff (s e : ℚ) (sp : String) :
    ∀ l : List SpeakerSegment, firstPosIdx s e sp l < l.length ↔ 0 < overlapSum s e l sp := by
  intro l
  induction l with
  | nil => simp [firstPosIdx, overlapSum]
  | cons t rest ih =>
    rw [overlapSum_cons]
    show (if t.speaker = sp ∧ max s t.start < min e t.stop then 0
      else firstPosIdx s e sp rest + 1) < rest.length + 1 ↔ _
    by_cases h : t.speaker = sp ∧ max s t.start < min e t.stop
    · rw [if_pos h, if_pos h.1]
      exact iff_of_true (Nat.succ_pos _)
        (add_pos_of_pos_of_nonneg ((overlapAmount_pos_iff s e t).mpr h.2)
          (overlapSum_nonneg s e rest sp))
    · rw [if_neg h]
      have hz : (if t.speaker = sp then overlapAmount s e t else 0) = 0 := by
        by_cases hs : t.speaker = sp
        · have hnp : ¬ max s t.start < min e t.stop := fun hp => h ⟨hs, hp⟩
          rw [if_pos hs, overlapAmount_eq_zero s e t hnp]
        · rw [if_neg hs]
      rw [hz, zero_add, Nat.succ_lt_succ_iff]
      exact ih

theorem firstPosIdx_append_one (s e : ℚ) (sp : String) (l : List SpeakerSegment)
    (t : SpeakerSegment) :
    firstPosIdx s e sp (l ++ [t]) =
      if firstPosIdx s e sp l < l.length then firstPosIdx s e sp l
      else if t.speaker = sp ∧ max s t.start < min e t.stop then l.length
      else l.length + 1 := by
  induction l with
  | nil =>
    show (if t.speaker = sp ∧ max s t.start < min e t.stop then 0
      else firstPosIdx s e sp [] + 1) = _
    rw [if_neg (show ¬ firstPosIdx s e sp [] < List.length [] from by simp [firstPosIdx])]
    by_cases h : t.speaker = sp ∧ max s t.start < min e t.stop
    · rw [if_pos h, if_pos h]; rfl
    · rw [if_neg h, if_neg h]; rfl
  | cons u rest ih =>
    by_cases hu : u.speaker = sp ∧ max s u.start < min e u.stop
    · have hL : firstPosIdx s e sp ((u :: rest) ++ [t]) = 0 := by
        show (if u.speaker = sp ∧ max s u.start < min e u.stop then 0
          else firstPosIdx s e sp (rest ++ [t]) + 1) = 0
        rw [if_pos hu]
      have hR : firstPosIdx s e sp (u :: rest) = 0 := by
        show (if u.speaker = sp ∧ max s u.start < min e u.stop then 0
          else firstPosIdx s e sp rest + 1) = 0
        rw [if_pos hu]
      rw [hL, hR]
      rw [if_pos (show 0 < (u :: rest).length from by simp)]
    · have hL : firstPosIdx s e sp ((u :: rest) ++ [t]) =
          firstPosIdx s e sp (rest ++ [t]) + 1 := by
        show (if u.speaker = sp ∧ max s u.start < min e u.stop then 0
          else firstPosIdx s e sp (rest ++ [t]) + 1) = _
        rw [if_neg hu]
      have hR : firstPosIdx s e sp (u :: rest) = firstPosIdx s e sp rest + 1 := by
        show (if u.speaker = sp ∧ max s u.start < min e u.stop then 0
          else firstPosIdx s e sp rest + 1) = _
        rw [if_neg hu]
      rw [hL, hR, ih]
      by_cases hr : firstPosIdx s e sp rest < rest.length
      · rw [if_pos hr]
        rw [show (u :: rest).length = rest.length + 1 from rfl,
          if_pos (Nat.succ_lt_succ hr)]
      · rw [if_neg hr]
        rw [show (u :: rest).length = rest.length + 1 from rfl,
          if_neg (fun hc => hr (Nat.lt_of_succ_lt_succ hc))]
        by_cases ht : t.speaker = sp ∧ max s t.start < min e t.stop
        · rw [if_pos ht, if_pos ht]
        · rw [if_neg ht, if_neg ht]

theorem speakerDurations_append_one (s e : ℚ) (l : List SpeakerSegment)
    (t : SpeakerSegment) :
    speakerDurations s e (l ++ [t]) = durStep s e (speakerDurations s e l) t := by
  simp [speakerDurations, List.foldl_append]

/-- The invariant of the `speaker_durations` dict: values are the
accumulated overlaps, keys are exactly the speakers with positive
accumulated overlap, and keys are ordered by the index of their first
positive-overlap turn. -/
theorem durInv (s e : ℚ) (turns : List SpeakerSegment) :
    (∀ sp, (alookup sp (speakerDurations s e turns)).getD 0 = overlapSum s e turns sp) ∧
    (∀ sp, sp ∈ (speakerDurations s e turns).map Prod.fst ↔ 0 < overlapSum s e turns sp) ∧
    ((speakerDurations s e turns).map Prod.fst).Pairwise
      (fun a b => firstPosIdx s e a turns < firstPosIdx s e b turns) := by
  induction turns using List.reverseRecOn with
  | nil =>
    refine ⟨fun sp => ?_, fun sp => ?_, ?_⟩ <;>
      simp [speakerDurations, alookup, overlapSum]
  | append_singleton l t ih =>
    obtain ⟨ihl, ihm, ihp⟩ := ih
    rw [speakerDurations_append_one]
    have hfirst : ∀ sp ∈ (speakerDurations s e l).map Prod.fst,
        firstPosIdx s e sp (l ++ [t]) = firstPosIdx s e sp l := by
      intro sp hsp
      have hlt := (firstPosIdx_lt_iff s e sp l).mpr ((ihm sp).mp hsp)
      rw [firstPosIdx_append_one, if_pos hlt]
    by_cases hpos : max s t.start < min e t.stop
    · have hamt : overlapAmount s e t = min e t.stop - max s t.start :=
        overlapAmount_eq_pos s e t hpos
      have hamt_pos : 0 < overlapAmount s e t := (overlapAmount_pos_iff s e t).mpr hpos
      rw [durStep, if_pos hpos]
      by_cases hmem : t.speaker ∈ (speakerDurations s e l).map Prod.fst
      · have hkeys := updateAssoc_keys_mem (speakerDurations s e l)
          (min e t.stop - max s t.start) hmem
        refine ⟨fun sp => ?_, fun sp => ?_, ?_⟩
        · by_cases hsp : sp = t.speaker
          · rw [hsp, alookup_updateAssoc_self, overlapSum_append_one,
              ← ihl t.speaker, Option.getD_some, if_pos rfl, hamt]
          · rw [alookup_updateAssoc_other _ _ hsp,
              overlapSum_append_one, ihl sp, if_neg (fun h => hsp h.symm), add_zero]
        · rw [hkeys, overlapSum_append_one]
          by_cases hsp : sp = t.speaker
          · rw [hsp, if_pos rfl]
            exact iff_of_true hmem
              (add_pos_of_nonneg_of_pos (overlapSum_nonneg s e l t.speaker) hamt_pos)
          · rw [if_neg (fun h => hsp h.symm), add_zero]
            exact ihm sp
        · rw [hkeys]
          exact ihp.imp_of_mem fun ha hb hr => by
            rw [hfirst _ ha, hfirst _ hb]; exact hr
      · have hkeys := updateAssoc_keys_not_mem (speakerDurations s e l)
          (min e t.stop - max s t.start) hmem
        have hlz : overlapSum s e l t.speaker = 0 := by
          have h1 := ihl t.speaker
          have h2 : alookup t.speaker (speakerDurations s e l) = none := by
            cases ha : alookup t.speaker (speakerDurations s e l) with
            | none => rfl
            | some v =>
              exact absurd ((alookup_isSome_iff _ _).mp (by rw [ha]; rfl)) hmem
          rw [h2] at h1
          simpa using h1.symm
        refine ⟨fun sp => ?_, fun sp => ?_, ?_⟩
        · by_cases hsp : sp = t.speaker
          · rw [hsp, alookup_updateAssoc_self, overlapSum_append_one,
              ← ihl t.speaker, Option.getD_some, if_pos rfl, hamt]
          · rw [alookup_updateAssoc_other _ _ hsp,
              overlapSum_append_one, ihl sp, if_neg (fun h => hsp h.symm), add_zero]
        · rw [hkeys, overlapSum_append_one]
          by_cases hsp : sp = t.speaker
          · rw [hsp, if_pos rfl, hlz, zero_add]
            exact iff_of_true (by simp) hamt_pos
          · rw [if_neg (fun h => hsp h.symm), add_zero, List.mem_append]
            constructor
            · intro h
              rcases h with h | h
              · exact (ihm sp).mp h
              · simp at h
                exact absurd h hsp
            · intro h
              exact Or.inl ((ihm sp).mpr h)
        · rw [hkeys, List.pairwise_append]
          have htsp : firstPosIdx s e t.speaker (l ++ [t]) = l.length := by
            have hnl : ¬ firstPosIdx s e t.speaker l < l.length := by
              rw [firstPosIdx_lt_iff]
              intro h
              exact hmem ((ihm t.speaker).mpr h)
            rw [firstPosIdx_append_one, if_neg hnl, if_pos ⟨rfl, hpos⟩]
          refine ⟨ihp.imp_of_mem fun ha hb hr => by
              rw [hfirst _ ha, hfirst _ hb]; exact hr,
            List.pairwise_singleton _ _, ?_⟩
          intro a ha b hb
          simp only [List.mem_singleton] at hb
          rw [hb, hfirst _ ha, htsp]
          exact (firstPosIdx_lt_iff s e a l).mpr ((ihm a).mp ha)
    · rw [durStep, if_neg hpos]
      have hamt : overlapAmount s e t = 0 := overlapAmount_eq_zero s e t hpos
      refine ⟨fun sp => ?_, fun sp => ?_, ?_⟩
      · rw [overlapSum_append_one, ihl sp]
        by_cases hsp : t.speaker = sp <;> simp [hsp, hamt]
      · rw [overlapSum_append_one]
        by_cases hsp : t.speaker = sp <;> simp [hsp, hamt, ihm sp]
      · exact ihp.imp_of_mem fun ha hb hr => by
          rw [hfirst _ ha, hfirst _ hb]; exact hr

theorem foldl_maxSnd_init_le (rest : List (String × ℚ)) : ∀ p : String × ℚ,
    p.2 ≤ (rest.foldl (fun best q => if best.2 < q.2 then q else best) p).2 := by
  induction rest with
  | nil => exact fun p => le_refl _
  | cons q rest ih =>
    intro p
    simp only [List.foldl_cons]
    by_cases h : p.2 < q.2
    · rw [if_pos h]
      exact le_trans (le_of_lt h) (ih q)
    · rw [if_neg h]
      exact ih p

theorem foldl_maxSnd_decomp (rest : List (String × ℚ)) : ∀ p : String × ℚ,
    ∃ pre post,
      p :: rest =
        pre ++ (rest.foldl (fun best q => if best.2 < q.2 then q else best) p) :: post ∧
      (∀ x ∈ pre, x.2 < (rest.foldl (fun best q => if best.2 < q.2 then q else best) p).2) ∧
      (∀ x ∈ post, x.2 ≤ (rest.foldl (fun best q => if best.2 < q.2 then q else best) p).2) := by
  induction rest with
  | nil => exact fun p => ⟨[], [], rfl, by simp, by simp⟩
  | cons q rest ih =>
    intro p
    simp only [List.foldl_cons]
    by_cases h : p.2 < q.2
    · rw [if_pos h]
      obtain ⟨pre, post, heq, hpre, hpost⟩ := ih q
      refine ⟨p :: pre, post, ?_, ?_, hpost⟩
      · rw [List.cons_append, ← heq]
      · intro x hx
        rcases List.mem_cons.mp hx with hx | hx
        · rw [hx]
          exact lt_of_lt_of_le h (foldl_maxSnd_init_le rest q)
        · exact hpre x hx
    · rw [if_neg h]
      obtain ⟨pre, post, heq, hpre, hpost⟩ := ih p
      cases pre with
      | nil =>
        rw [List.nil_append] at heq
        have h1 : p = rest.foldl (fun best q => if best.2 < q.2 then q else best) p :=
          (List.cons.injEq _ _ _ _ ▸ heq : _ ∧ _).1
        have h2 : rest = post := (List.cons.injEq _ _ _ _ ▸ heq : _ ∧ _).2
        refine ⟨[], q :: post, ?_, by simp, ?_⟩
        · rw [List.nil_append, ← h1, ← h2]
        · intro x hx
          rcases List.mem_cons.mp hx with hx | hx
          · rw [hx, ← h1]
            exact not_lt.mp h
          · exact hpost x hx
      | cons p0 pre' =>
        rw [List.cons_append] at heq
        have h1 : p = p0 := (List.cons.injEq _ _ _ _ ▸ heq : _ ∧ _).1
        have h2 : rest = pre' ++
            (rest.foldl (fun best q => if best.2 < q.2 then q else best) p) :: post :=
          (List.cons.injEq _ _ _ _ ▸ heq : _ ∧ _).2
        have hp0 : p.2 < (rest.foldl (fun best q => if best.2 < q.2 then q else best) p).2 := by
          have hh := hpre p0 (List.mem_cons_self _ _)
          rw [← h1] at hh
          exact hh
        refine ⟨p :: q :: pre', post, ?_, ?_, hpost⟩
        · rw [List.cons_append, List.cons_append, ← h2]
        · intro x hx
          rcases List.mem_cons.mp hx with hx | hx
          · rw [hx]
            exact hp0
          rcases List.mem_cons.mp hx with hx | hx
          · rw [hx]
            exact lt_of_le_of_lt (not_lt.mp h) hp0
          · exact hpre x (List.mem_cons_of_mem _ hx)

theorem maxBySnd_spec {l : List (String × ℚ)} (hne : l ≠ []) :
    ∃ pre m post, l = pre ++ m :: post ∧ maxBySnd l = some m.1 ∧
      (∀ x ∈ pre, x.2 < m.2) ∧ ∀ x ∈ post, x.2 ≤ m.2 := by
  cases l with
  | nil => exact absurd rfl hne
  | cons p rest =>
    obtain ⟨pre, post, heq, hpre, hpost⟩ := foldl_maxSnd_decomp rest p
    exact ⟨pre, _, post, heq, rfl, hpre, hpost⟩

theorem findDominantSpeaker_none (s e : ℚ) (turns : List SpeakerSegment)
    (h : ∀ t ∈ turns, ¬ max s t.start < min e t.stop) :
    findDominantSpeaker s e turns = none := by
  have hm := (durInv s e turns).2.1
  have hz : ∀ sp, overlapSum s e turns sp = 0 := by
    intro sp
    apply List.sum_eq_zero
    intro x hx
    obtain ⟨t, ht, hxt⟩ := List.mem_map.mp hx
    exact hxt ▸ overlapAmount_eq_zero s e t (h t (List.mem_of_mem_filter ht))
  have hD : speakerDurations s e turns = [] := by
    cases hD : speakerDurations s e turns with
    | nil => rfl
    | cons p rest =>
      have hmem : p.1 ∈ (speakerDurations s e turns).map Prod.fst := by
        rw [hD]; simp
      have := (hm p.1).mp hmem
      rw [hz p.1] at this
      exact absurd this (lt_irrefl 0)
  rw [findDominantSpeaker, hD]
  rfl

theorem findDominantSpeaker_chosen (s e : ℚ) (turns : List SpeakerSegment)
    {t0 : SpeakerSegment} (ht0 : t0 ∈ turns) (hpos0 : max s t0.start < min e t0.stop) :
    ∃ sp, findDominantSpeaker s e turns = some sp ∧ isChosenSpeaker s e turns sp ∧
      ∃ t ∈ turns, t.speaker = sp := by
  obtain ⟨ihl, ihm, ihp⟩ := durInv s e turns
  have hsum0 : 0 < overlapSum s e turns t0.speaker := by
    have hmem : overlapAmount s e t0 ∈
        ((turns.filter fun t => t.speaker = t0.speaker).map (overlapAmount s e)) :=
      List.mem_map_of_mem _ (List.mem_filter.mpr ⟨ht0, by simp⟩)
    have hnn : ∀ x ∈ (turns.filter fun t => t.speaker = t0.speaker).map
        (overlapAmount s e), (0:ℚ) ≤ x := by
      intro x hx
      obtain ⟨t, -, hxt⟩ := List.mem_map.mp hx
      exact hxt ▸ overlapAmount_nonneg s e t
    have hle := List.single_le_sum hnn _ hmem
    exact lt_of_lt_of_le ((overlapAmount_pos_iff s e t0).mpr hpos0) hle
  have hne : speakerDurations s e turns ≠ [] := by
    intro hD
    have := (ihm t0.speaker).mpr hsum0
    rw [hD] at this
    simp at this
  obtain ⟨pre, m, post, hdec, hmax, hpre, hpost⟩ := maxBySnd_spec hne
  have hnd : ((speakerDurations s e turns).map Prod.fst).Nodup :=
    ihp.imp fun hr he => absurd (he ▸ hr) (lt_irrefl _)
  have hmD : m ∈ speakerDurations s e turns := by
    rw [hdec]
    exact List.mem_append_right _ (List.mem_cons_self _ _)
  have hlkm : alookup m.1 (speakerDurations s e turns) = some m.2 :=
    alookup_of_mem_nodup hmD hnd
  have hsum_m : overlapSum s e turns m.1 = m.2 := by
    have := ihl m.1
    rw [hlkm] at this
    simpa using this.symm
  have hm_keys : m.1 ∈ (speakerDurations s e turns).map Prod.fst :=
    List.mem_map_of_mem Prod.fst hmD
  have hm_pos : 0 < m.2 := by
    have := (ihm m.1).mp hm_keys
    rwa [hsum_m] at this
  have hval_le : ∀ x ∈ speakerDurations s e turns, x.2 ≤ m.2 := by
    intro x hx
    rw [hdec] at hx
    rcases List.mem_append.mp hx with hx | hx
    · exact le_of_lt (hpre x hx)
    rcases List.mem_cons.mp hx with hx | hx
    · rw [hx]
    · exact hpost x hx
  refine ⟨m.1, by rw [findDominantSpeaker, hmax], ⟨?_, ?_, ?_⟩, ?_⟩
  · rw [hsum_m]
    exact hm_pos
  · intro sp
    by_cases hk : sp ∈ (speakerDurations s e turns).map Prod.fst
    · obtain ⟨v, hv⟩ := Option.isSome_iff_exists.mp ((alookup_isSome_iff _ _).mpr hk)
      have hvmem : (sp, v) ∈ speakerDurations s e turns := alookup_mem hv
      have hveq : overlapSum s e turns sp = v := by
        have := ihl sp
        rw [hv] at this
        simpa using this.symm
      rw [hveq, hsum_m]
      exact hval_le (sp, v) hvmem
    · have hnp : ¬ 0 < overlapSum s e turns sp := fun hp => hk ((ihm sp).mpr hp)
      rw [hsum_m]
      exact le_trans (not_lt.mp hnp) (le_of_lt hm_pos)
  · intro sp hne' heq
    have hp' : 0 < overlapSum s e turns sp := by
      rw [heq, hsum_m]
      exact hm_pos
    have hk : sp ∈ (speakerDurations s e turns).map Prod.fst := (ihm sp).mpr hp'
    obtain ⟨v, hv⟩ := Option.isSome_iff_exists.mp ((alookup_isSome_iff _ _).mpr hk)
    have hvmem : (sp, v) ∈ speakerDurations s e turns := alookup_mem hv
    have hveq : v = m.2 := by
      have := ihl sp
      rw [hv] at this
      simp only [Option.getD_some] at this
      rw [this, heq]
      exact hsum_m
    have hv_post : (sp, v) ∈ post := by
      rw [hdec] at hvmem
      rcases List.mem_append.mp hvmem with hx | hx
      · exact absurd (hveq ▸ hpre _ hx) (lt_irrefl m.2)
      rcases List.mem_cons.mp hx with hx | hx
      · exact absurd (congrArg Prod.fst hx) hne'
      · exact hx
    have hkeys_dec : (speakerDurations s e turns).map Prod.fst =
        pre.map Prod.fst ++ m.1 :: post.map Prod.fst := by
      rw [hdec]
      simp
    have hpair := ihp
    rw [hkeys_dec, List.pairwise_append] at hpair
    have hcons := List.pairwise_cons.mp hpair.2.1
    exact hcons.1 sp (List.mem_map_of_mem Prod.fst hv_post)
  · have := overlapSum_pos_exists (hsum_m ▸ hm_pos)
    exact this

/-- C1 counterexample: with the single diarization turn
`[0,1)` labelled by the empty-string speaker, the empty string has the
strictly maximal accumulated overlap (1 vs 0 for every other label), yet
`merge_with_transcription` assigns the sentinel `"UNKNOWN"` — Python's
`speaker or "UNKNOWN"` treats the empty string as falsy — so the claim
that the maximal-overlap speaker_id is always assigned fails. -/
theorem merge_with_transcription_counterexample :
    mergeWithTranscription [⟨0, 1, "hi"⟩] [⟨0, 1, ""⟩] =
      [{ start := 0, stop := 1, text := "hi", speaker := "UNKNOWN" }] ∧
    overlapSum 0 1 [⟨0, 1, ""⟩] "" = 1 ∧
    (∀ sp, sp ≠ "" → overlapSum 0 1 [⟨0, 1, ""⟩] sp = 0) ∧
    "UNKNOWN" ≠ "" := by
  have h1 : max (0:ℚ) 0 < min 1 1 := by norm_num
  refine ⟨?_, ?_, ?_, by decide⟩
  · simp [mergeWithTranscription, findDominantSpeaker, speakerDurations, durStep,
      updateAssoc, maxBySnd, h1]
  · simp [overlapSum, overlapAmount, List.filter_cons]
  · intro sp hspne
    have h2 : ¬ ("" = sp) := fun h => hspne h.symm
    simp [overlapSum, List.filter_cons, h2]

/-- C1 amended: provided every diarization turn carries a nonempty
speaker label (the empty label is falsy in Python and would be reported
as `"UNKNOWN"`), `merge_with_transcription` keeps each segment's times
and text; it assigns `"UNKNOWN"` when no turn has positive overlap with
the segment, and otherwise assigns a speaker with maximal accumulated
overlap, a tie between two speakers going to the one that accumulated a
positive overlap first. -/
theorem merge_with_transcription_dominant (tsegs : List TranscriptSegment)
    (turns : List SpeakerSegment) (hsp : ∀ t ∈ turns, t.speaker ≠ "") :
    (mergeWithTranscription tsegs turns).length = tsegs.length ∧
    ∀ (i : ℕ) (ts : TranscriptSegment), tsegs[i]? = some ts →
      ∃ o : Seg, (mergeWithTranscription tsegs turns)[i]? = some o ∧
        o.start = ts.start ∧ o.stop = ts.stop ∧ o.text = ts.text ∧
        ((∀ t ∈ turns, ¬ max ts.start t.start < min ts.stop t.stop) →
          o.speaker = "UNKNOWN") ∧
        ((∃ t ∈ turns, max ts.start t.start < min ts.stop t.stop) →
          isChosenSpeaker ts.start ts.stop turns o.speaker) := by
  constructor
  · simp [mergeWithTranscription]
  · intro i ts hts
    obtain ⟨hi, hts_eq⟩ := List.getElem?_eq_some.mp hts
    have hi' : i < (mergeWithTranscription tsegs turns).length := by
      rw [mergeWithTranscription, List.length_map]
      exact hi
    refine ⟨(mergeWithTranscription tsegs turns).get ⟨i, hi'⟩,
      List.getElem?_eq_some.mpr ⟨hi', rfl⟩, ?_⟩
    have hout : (mergeWithTranscription tsegs turns).get ⟨i, hi'⟩ =
        { start := ts.start, stop := ts.stop, text := ts.text,
          speaker := match findDominantSpeaker ts.start ts.stop turns with
            | none => "UNKNOWN"
            | some sp => if sp = "" then "UNKNOWN" else sp } := by
      simp only [mergeWithTranscription, List.get_eq_getElem, List.getElem_map, hts_eq]
    rw [hout]
    refine ⟨rfl, rfl, rfl, ?_, ?_⟩
    · intro hno
      show (match findDominantSpeaker ts.start ts.stop turns with
        | none => "UNKNOWN"
        | some sp => if sp = "" then "UNKNOWN" else sp) = "UNKNOWN"
      rw [findDominantSpeaker_none ts.start ts.stop turns hno]
    · rintro ⟨t0, ht0, hp0⟩
      obtain ⟨sp, hfind, hchosen, t, ht, htsp⟩ :=
        findDominantSpeaker_chosen ts.start ts.stop turns ht0 hp0
      show isChosenSpeaker ts.start ts.stop turns
        (match findDominantSpeaker ts.start ts.stop turns with
          | none => "UNKNOWN"
          | some sp => if sp = "" then "UNKNOWN" else sp)
      rw [hfind]
      have hne : ¬ sp = "" := htsp ▸ hsp t ht
      simpa [hne] using hchosen

/-- Witness for the amended C1 theorem: on the segment `[0,2)` with
turns `A:[0,1)` and `B:[0,2)`, the aligner output exists at index 0 and
its speaker satisfies the chosen-speaker specification (`B`, overlap 2,
beats `A`, overlap 1). -/
theorem merge_with_transcription_dominant_witness :
    ∃ o : Seg, (mergeWithTranscription [⟨0, 2, "hello"⟩] [⟨0, 1, "A"⟩, ⟨0, 2, "B"⟩])[0]? = some o ∧
      isChosenSpeaker 0 2 [⟨0, 1, "A"⟩, ⟨0, 2, "B"⟩] o.speaker := by
  have h := (merge_with_transcription_dominant [⟨0, 2, "hello"⟩]
    [⟨0, 1, "A"⟩, ⟨0, 2, "B"⟩] (by decide)).2 0 ⟨0, 2, "hello"⟩ rfl
  obtain ⟨o, ho, -, -, -, -, hchos⟩ := h
  refine ⟨o, ho, ?_⟩
  exact hchos ⟨⟨0, 1, "A"⟩, by simp, by norm_num⟩

/-! ## Speaker Mapping Applier: `SpeakerIdentifier._apply_speaker_mappings`

The applier substitutes, for each mapping entry in order, every
case-insensitive occurrence of the literal (regex-escaped) speaker id in
the segment text: `re.compile(re.escape(old), re.IGNORECASE).sub(new, text)`.
The left-to-right scan is embedded with an explicit fuel argument (the
length of the scanned string) so that it is structurally recursive. -/

/-- Case-insensitive character comparison (`re.IGNORECASE`). -/
def ciCharEq (a b : Char) : Bool := a.toLower == b.toLower

/-- Does the pattern start the string, compared case-insensitively? -/
def ciStartsWith : List Char → List Char → Bool
  | [], _ => true
  | _ :: _, [] => false
  | p :: ps, c :: cs => ciCharEq p c && ciStartsWith ps cs

/-- Is there a case-insensitive occurrence of the literal pattern
anywhere in the string? -/
def ciContainsAux (pat : List Char) : List Char → Bool
  | [] => pat.isEmpty
  | c :: cs => ciStartsWith pat (c :: cs) || ciContainsAux pat cs

/-- String-level case-insensitive containment of the literal `pat`. -/
def containsCI (pat s : String) : Bool := ciContainsAux pat.toList s.toList

/-- The scan of `re.sub` on a literal pattern: at each position, if the
(case-insensitively compared) pattern matches, emit the replacement and
continue after the match, otherwise emit the character and move on.
`fuel` is instantiated with the string length; every step consumes at
least one character, so the fuel never runs out on the intended calls.
The mapping keys fed to this scan are validated speaker ids containing
`"SPEAKER_"`, hence nonempty; an empty pattern never matches here. -/
def ciReplaceFuel (pat rep : List Char) : ℕ → List Char → List Char
  | _, [] => []
  | 0, s => s
  | fuel + 1, c :: cs =>
    if pat ≠ [] ∧ ciStartsWith pat (c :: cs) then
      rep ++ ciReplaceFuel pat rep fuel (List.drop pat.length (c :: cs))
    else
      c :: ciReplaceFuel pat rep fuel cs

/-- Embedding of `re.compile(re.escape(pat), re.IGNORECASE).sub(rep, s)` for the
nonempty literal patterns used by the applier. -/
def ciReplaceAll (pat rep s : String) : String :=
  String.mk (ciReplaceFuel pat.toList rep.toList s.toList.length s.toList)

/-- The loop `for old_speaker, new_name in mappings.items():
updated_text = pattern.sub(new_name, updated_text)`. -/
def substituteAll (mappings : List (String × String)) (text : String) : String :=
  mappings.foldl (fun t p => ciReplaceAll p.1 p.2 t) text

/-- Embedding of `SpeakerIdentifier._apply_speaker_mappings`: every segment gets the
text-substitution pass; the speaker field is replaced (and the original
id recorded) exactly when the segment's speaker has a mapping entry. -/
def applySpeakerMappings (segments : List Seg)
    (mappings : List (String × String)) : List Seg :=
  segments.map fun seg =>
    let seg1 :=
      match alookup seg.speaker mappings with
      | some newName =>
        { seg with speaker := newName, original_speaker_id := some seg.speaker }
      | none => seg
    { seg1 with text := substituteAll mappings seg.text }

/-- Two character lists are equal up to case. -/
def ciEqL (a b : List Char) : Prop := a.map Char.toLower = b.map Char.toLower

/-- There is a case-insensitive occurrence of `pat` in `s`. -/
def hasCIOcc (pat s : List Char) : Prop := ∃ a m b, s = a ++ m ++ b ∧ ciEqL m pat

/-- Specification of leftmost repeated replacement, written from the
spec: either the string has no case-insensitive occurrence of the
pattern and is returned unchanged, or the leftmost occurrence is
replaced by the replacement text and the remainder is processed
recursively. -/
inductive CIReplaced (pat rep : List Char) : List Char → List Char → Prop
  | noOcc (s : List Char) : ¬ hasCIOcc pat s → CIReplaced pat rep s s
  | step (a m b r : List Char) : ciEqL m pat →
      (∀ a2 m2 b2, a ++ m ++ b = a2 ++ m2 ++ b2 → ciEqL m2 pat →
        a.length ≤ a2.length) →
      CIReplaced pat rep b r →
      CIReplaced pat rep (a ++ m ++ b) (a ++ rep ++ r)

theorem ciStartsWith_iff (pat : List Char) : ∀ s : List Char,
    ciStartsWith pat s = true ↔ ∃ m b, s = m ++ b ∧ ciEqL m pat := by
  induction pat with
  | nil =>
    intro s
    exact iff_of_true rfl ⟨[], s, rfl, rfl⟩
  | cons p ps ih =>
    intro s
    cases s with
    | nil =>
      simp only [ciStartsWith]
      constructor
      · intro h; exact absurd h (by simp)
      · rintro ⟨m, b, heq, hci⟩
        have hm : m = [] := by
          cases m with
          | nil => rfl
          | cons x xs => simp at heq
        rw [hm] at hci
        simp [ciEqL] at hci
    | cons c cs =>
      simp only [ciStartsWith, Bool.and_eq_true]
      constructor
      · rintro ⟨hc, hrest⟩
        obtain ⟨m, b, heq, hci⟩ := (ih cs).mp hrest
        refine ⟨c :: m, b, by rw [heq]; rfl, ?_⟩
        simp only [ciEqL, List.map_cons]
        rw [show c.toLower = p.toLower from by
          have := of_decide_eq_true (by exact hc : decide (p.toLower = c.toLower) = true)
          exact this.symm]
        exact congrArg (List.cons p.toLower) hci
      · rintro ⟨m, b, heq, hci⟩
        cases m with
        | nil =>
          exfalso
          simp [ciEqL] at hci
        | cons m0 m' =>
          simp only [List.cons_append] at heq
          have hc : c = m0 := (List.cons.injEq _ _ _ _ ▸ heq : _ ∧ _).1
          have hcs : cs = m' ++ b := (List.cons.injEq _ _ _ _ ▸ heq : _ ∧ _).2
          simp only [ciEqL, List.map_cons, List.cons.injEq] at hci
          refine ⟨?_, (ih cs).mpr ⟨m', b, hcs, hci.2⟩⟩
          simp [ciCharEq, hc, hci.1.symm]

theorem ciContainsAux_iff (pat : List Char) : ∀ s : List Char,
    ciContainsAux pat s = true ↔ hasCIOcc pat s := by
  intro s
  induction s with
  | nil =>
    simp only [ciContainsAux]
    constructor
    · intro h
      have : pat = [] := by
        cases pat with
        | nil => rfl
        | cons x xs => simp at h
      exact ⟨[], [], [], rfl, by simp [this, ciEqL]⟩
    · rintro ⟨a, m, b, heq, hci⟩
      have ha : a = [] ∧ m = [] := by
        constructor <;> [cases a; cases m] <;> first | rfl | simp_all
      have : pat = [] := by
        have := ha.2 ▸ hci
        simpa [ciEqL] using this.symm
      simp [this]
  | cons c cs ih =>
    simp only [ciContainsAux, Bool.or_eq_true]
    constructor
    · rintro (h | h)
      · obtain ⟨m, b, heq, hci⟩ := (ciStartsWith_iff pat _).mp h
        exact ⟨[], m, b, by simpa using heq, hci⟩
      · obtain ⟨a, m, b, heq, hci⟩ := ih.mp h
        exact ⟨c :: a, m, b, by simp [heq], hci⟩
    · rintro ⟨a, m, b, heq, hci⟩
      cases a with
      | nil =>
        exact Or.inl ((ciStartsWith_iff pat _).mpr ⟨m, b, by simpa using heq, hci⟩)
      | cons a0 a' =>
        rw [List.cons_append, List.cons_append] at heq
        injection heq with h1 h2
        exact Or.inr (ih.mpr ⟨a', m, b, h2, hci⟩)

theorem ciEqL_length {m pat : List Char} (h : ciEqL m pat) : m.length = pat.length := by
  have := congrArg List.length h
  simpa using this

theorem ciEqL_ne_nil {m pat : List Char} (h : ciEqL m pat) (hp : pat ≠ []) : m ≠ [] := by
  intro hm
  rw [hm] at h
  exact hp (by simpa [ciEqL, eq_comm, List.map_eq_nil_iff] using h)

theorem hasCIOcc_nil (pat : List Char) (hp : pat ≠ []) : ¬ hasCIOcc pat [] := by
  rintro ⟨a, m, b, heq, hci⟩
  have h1 : a ++ m ++ b = [] := heq.symm
  have h2 := (List.append_eq_nil.mp (List.append_eq_nil.mp h1).1).2
  rw [h2] at hci
  exact ciEqL_ne_nil hci hp rfl

theorem CIReplaced_shift {pat rep : List Char} (c : Char) {cs r : List Char}
    (hst : ¬ ciStartsWith pat (c :: cs) = true) (h : CIReplaced pat rep cs r) :
    CIReplaced pat rep (c :: cs) (c :: r) := by
  cases h with
  | noOcc s hno =>
    apply CIReplaced.noOcc
    rintro ⟨a, m, b, heq, hci⟩
    cases a with
    | nil =>
      exact hst ((ciStartsWith_iff pat _).mpr ⟨m, b, by simpa using heq, hci⟩)
    | cons a0 a' =>
      simp only [List.cons_append] at heq
      injection heq with h1 h2
      exact hno ⟨a', m, b, h2, hci⟩
  | step a m b r' hci hmin hrec =>
    have e1 : c :: (a ++ m ++ b) = (c :: a) ++ m ++ b := by simp
    have e2 : c :: (a ++ rep ++ r') = (c :: a) ++ rep ++ r' := by simp
    rw [e1, e2]
    refine CIReplaced.step (c :: a) m b r' hci ?_ hrec
    intro a2 m2 b2 heq hci2
    cases a2 with
    | nil =>
      exact absurd ((ciStartsWith_iff pat _).mpr ⟨m2, b2, by simpa using heq, hci2⟩) hst
    | cons c2 a2' =>
      simp only [List.cons_append] at heq
      injection heq with h1 h2
      exact Nat.succ_le_succ (hmin a2' m2 b2 h2 hci2)

theorem ciReplaceFuel_spec (pat rep : List Char) (hp : pat ≠ []) :
    ∀ fuel s, s.length ≤ fuel → CIReplaced pat rep s (ciReplaceFuel pat rep fuel s) := by
  intro fuel
  induction fuel with
  | zero =>
    intro s hs
    have hnil : s = [] := List.length_eq_zero.mp (Nat.le_zero.mp hs)
    rw [hnil]
    exact CIReplaced.noOcc [] (hasCIOcc_nil pat hp)
  | succ fuel ih =>
    intro s hs
    cases s with
    | nil => exact CIReplaced.noOcc [] (hasCIOcc_nil pat hp)
    | cons c cs =>
      by_cases hst : ciStartsWith pat (c :: cs) = true
      · obtain ⟨m, b, heq, hci⟩ := (ciStartsWith_iff pat _).mp hst
        have hmlen : m.length = pat.length := ciEqL_length hci
        have hmne : m ≠ [] := ciEqL_ne_nil hci hp
        have hdrop : List.drop pat.length (c :: cs) = b := by
          rw [heq, ← hmlen]
          exact List.drop_left m b
        have hres : ciReplaceFuel pat rep (fuel + 1) (c :: cs) =
            rep ++ ciReplaceFuel pat rep fuel b := by
          show (if pat ≠ [] ∧ ciStartsWith pat (c :: cs) = true then
              rep ++ ciReplaceFuel pat rep fuel (List.drop pat.length (c :: cs))
            else c :: ciReplaceFuel pat rep fuel cs) = _
          rw [if_pos ⟨hp, hst⟩, hdrop]
        have hblen : b.length ≤ fuel := by
          have h1 : (c :: cs).length = m.length + b.length := by
            rw [heq]
            simp
          have h2 : 1 ≤ m.length := by
            cases m with
            | nil => exact absurd rfl hmne
            | cons x xs => simp
          simp only [List.length_cons] at h1 hs
          omega
        have hstep := @CIReplaced.step pat rep [] m b (ciReplaceFuel pat rep fuel b) hci
          (fun a2 m2 b2 _ _ => Nat.zero_le _) (ih b hblen)
        rw [hres, heq]
        simpa using hstep
      · have hres : ciReplaceFuel pat rep (fuel + 1) (c :: cs) =
            c :: ciReplaceFuel pat rep fuel cs := by
          show (if pat ≠ [] ∧ ciStartsWith pat (c :: cs) = true then
              rep ++ ciReplaceFuel pat rep fuel (List.drop pat.length (c :: cs))
            else c :: ciReplaceFuel pat rep fuel cs) = _
          rw [if_neg (fun hc => hst hc.2)]
        rw [hres]
        have hcs : cs.length ≤ fuel := by
          simp only [List.length_cons] at hs
          omega
        exact CIReplaced_shift c hst (ih cs hcs)

theorem ciReplaceFuel_no_occ (pat rep : List Char) :
    ∀ fuel s, ciContainsAux pat s = false → ciReplaceFuel pat rep fuel s = s := by
  intro fuel
  induction fuel with
  | zero => intro s h; cases s <;> rfl
  | succ fuel ih =>
    intro s h
    cases s with
    | nil => rfl
    | cons c cs =>
      rw [ciContainsAux] at h
      have h1 : ciStartsWith pat (c :: cs) = false := by
        cases hb : ciStartsWith pat (c :: cs) with
        | false => rfl
        | true => rw [hb] at h; simp at h
      have h2 : ciContainsAux pat cs = false := by
        cases hb : ciContainsAux pat cs with
        | false => rfl
        | true => rw [hb] at h; simp at h
      have hst : ¬ ciStartsWith pat (c :: cs) = true := by
        rw [h1]
        simp
      show (if pat ≠ [] ∧ ciStartsWith pat (c :: cs) = true then
          rep ++ ciReplaceFuel pat rep fuel (List.drop pat.length (c :: cs))
        else c :: ciReplaceFuel pat rep fuel cs) = _
      rw [if_neg (fun hc => hst hc.2), ih cs h2]

theorem ciReplaceAll_spec (pat rep s : String) (hp : pat ≠ "") :
    CIReplaced pat.toList rep.toList s.toList (ciReplaceAll pat rep s).toList := by
  have hpl : pat.toList ≠ [] := by
    intro h
    exact hp (by cases pat; simp_all [String.toList])
  exact ciReplaceFuel_spec pat.toList rep.toList hpl s.toList.length s.toList (le_refl _)

theorem ciReplaceAll_no_occ (pat rep s : String) (h : containsCI pat s = false) :
    ciReplaceAll pat rep s = s := by
  rw [ciReplaceAll, ciReplaceFuel_no_occ pat.toList rep.toList _ s.toList h]
  rfl

theorem substituteAll_no_occ (mappings : List (String × String)) (t : String)
    (h : ∀ p ∈ mappings, containsCI p.1 t = false) : substituteAll mappings t = t := by
  induction mappings with
  | nil => rfl
  | cons p rest ih =>
    show substituteAll rest (ciReplaceAll p.1 p.2 t) = t
    rw [ciReplaceAll_no_occ p.1 p.2 t (h p (List.mem_cons_self _ _)),
      ih fun q hq => h q (List.mem_cons_of_mem _ hq)]

theorem map_id_of_mem {α : Type} {l : List α} {f : α → α} (h : ∀ x ∈ l, f x = x) :
    l.map f = l := by
  induction l with
  | nil => rfl
  | cons a l ih =>
    rw [List.map_cons, h a (List.mem_cons_self _ _),
      ih fun x hx => h x (List.mem_cons_of_mem _ hx)]

/-- C4: the mapping applier preserves each segment's start and end; its
output text is the sequential case-insensitive literal substitution of
every mapping entry applied to the input text — and this text pass runs
on every segment, including those whose own speaker has no mapping
entry; the speaker field is replaced by the display name and the
original id recorded in `original_speaker_id` exactly when the segment's
speaker has a mapping entry; and each elementary substitution step
satisfies the leftmost case-insensitive literal-occurrence replacement
specification `CIReplaced`.  (Mapping keys are validated speaker ids
containing `"SPEAKER_"`, hence nonempty.) -/
theorem apply_speaker_mappings_spec (segments : List Seg)
    (mappings : List (String × String)) (hkeys : ∀ p ∈ mappings, p.1 ≠ "") :
    (applySpeakerMappings segments mappings).length = segments.length ∧
    (∀ (i : ℕ) (seg : Seg), segments[i]? = some seg →
      ∃ o : Seg, (applySpeakerMappings segments mappings)[i]? = some o ∧
        o.start = seg.start ∧ o.stop = seg.stop ∧
        o.text = substituteAll mappings seg.text ∧
        (∀ name, alookup seg.speaker mappings = some name →
          o.speaker = name ∧ o.original_speaker_id = some seg.speaker) ∧
        (alookup seg.speaker mappings = none →
          o.speaker = seg.speaker ∧ o.original_speaker_id = seg.original_speaker_id)) ∧
    (∀ p ∈ mappings, ∀ text : String,
      CIReplaced p.1.toList p.2.toList text.toList (ciReplaceAll p.1 p.2 text).toList) := by
  refine ⟨by simp [applySpeakerMappings], ?_, fun p hp text => ciReplaceAll_spec _ _ _ (hkeys p hp)⟩
  intro i seg hseg
  obtain ⟨hi, hseg_eq⟩ := List.getElem?_eq_some.mp hseg
  have hi' : i < (applySpeakerMappings segments mappings).length := by
    rw [applySpeakerMappings, List.length_map]
    exact hi
  refine ⟨(applySpeakerMappings segments mappings).get ⟨i, hi'⟩,
    List.getElem?_eq_some.mpr ⟨hi', rfl⟩, ?_⟩
  have hout : (applySpeakerMappings segments mappings).get ⟨i, hi'⟩ =
      { (match alookup seg.speaker mappings with
         | some newName =>
           { seg with speaker := newName, original_speaker_id := some seg.speaker }
         | none => seg) with text := substituteAll mappings seg.text } := by
    simp only [applySpeakerMappings, List.get_eq_getElem, List.getElem_map, hseg_eq]
  rw [hout]
  cases halk : alookup seg.speaker mappings with
  | some name =>
    refine ⟨rfl, rfl, rfl, ?_, ?_⟩
    · intro nm hnm
      injection hnm with hnm
      rw [← hnm]
      exact ⟨rfl, rfl⟩
    · intro hnone
      exact absurd hnone (by simp)
  | none =>
    refine ⟨rfl, rfl, rfl, ?_, fun _ => ⟨rfl, rfl⟩⟩
    intro nm hnm
    exact absurd hnm (by simp)

/-- Witness for the C4 theorem: applying the single mapping
`SPEAKER_00 ↦ Jane` to a segment spoken by `SPEAKER_00` whose text
mentions `SPEAKER_00` yields the renamed speaker, the recorded original
id, and the substituted text. -/
theorem apply_speaker_mappings_spec_witness :
    ∃ o : Seg,
      (applySpeakerMappings [⟨0, 1, "SPEAKER_00 said hi", "SPEAKER_00", none⟩]
        [("SPEAKER_00", "Jane")])[0]? = some o ∧
      o.text = substituteAll [("SPEAKER_00", "Jane")] "SPEAKER_00 said hi" ∧
      o.speaker = "Jane" ∧ o.original_speaker_id = some "SPEAKER_00" := by
  have h := (apply_speaker_mappings_spec
    [⟨0, 1, "SPEAKER_00 said hi", "SPEAKER_00", none⟩]
    [("SPEAKER_00", "Jane")] (by decide)).2.1 0
    ⟨0, 1, "SPEAKER_00 said hi", "SPEAKER_00", none⟩ rfl
  obtain ⟨o, ho, -, -, htext, hsome, -⟩ := h
  have hs := hsome "Jane" (by decide)
  exact ⟨o, ho, htext, hs.1, hs.2⟩

/-- C5 counterexample: the mapping `ab ↦ a` satisfies the claim's side
conditions — the display name `"a"` neither contains the key `"ab"`
case-insensitively nor is itself a key — yet on a segment with text
`"abb"` one application produces `"ab"` (the replacement recreates an
occurrence of the key across the boundary with the following text), and
a second application changes the text again, to `"a"`: applying the
identical mapping twice is not a no-op. -/
theorem apply_mappings_roundtrip_counterexample :
    (∀ p ∈ [("ab", "a")], ∀ q ∈ [("ab", "a")], containsCI q.1 p.2 = false) ∧
    (∀ p ∈ [("ab", "a")], alookup p.2 [("ab", "a")] = none) ∧
    (applySpeakerMappings [⟨0, 1, "abb", "S", none⟩] [("ab", "a")]).map Seg.text =
      ["ab"] ∧
    (applySpeakerMappings (applySpeakerMappings [⟨0, 1, "abb", "S", none⟩] [("ab", "a")])
        [("ab", "a")]).map Seg.text = ["a"] ∧
    (applySpeakerMappings (applySpeakerMappings [⟨0, 1, "abb", "S", none⟩] [("ab", "a")])
        [("ab", "a")]).map Seg.text ≠
      (applySpeakerMappings [⟨0, 1, "abb", "S", none⟩] [("ab", "a")]).map Seg.text := by
  refine ⟨by decide, by decide, by decide, by decide, by decide⟩

/-- C5 amended: re-applying an identical mapping is a no-op provided
(as in the claim) no display name is itself a mapping key, and —
strengthening the containment side condition, which the counterexample
shows insufficient — no mapped speaker_id occurs case-insensitively in
any once-applied segment text. -/
theorem apply_mappings_roundtrip_amended (segments : List Seg)
    (mappings : List (String × String))
    (hnokey : ∀ p ∈ mappings, alookup p.2 mappings = none)
    (hres : ∀ o ∈ applySpeakerMappings segments mappings, ∀ p ∈ mappings,
      containsCI p.1 o.text = false) :
    applySpeakerMappings (applySpeakerMappings segments mappings) mappings =
      applySpeakerMappings segments mappings := by
  conv_lhs => rw [applySpeakerMappings]
  apply map_id_of_mem
  intro x hx
  have htext : substituteAll mappings x.text = x.text :=
    substituteAll_no_occ _ _ (hres x hx)
  obtain ⟨seg, hseg, hxeq⟩ := List.mem_map.mp hx
  have hxs : alookup x.speaker mappings = none := by
    cases halk : alookup seg.speaker mappings with
    | some name =>
      have hsp : x.speaker = name := by
        rw [← hxeq]
        simp [halk]
      rw [hsp]
      exact hnokey (seg.speaker, name) (alookup_mem halk)
    | none =>
      have hsp : x.speaker = seg.speaker := by
        rw [← hxeq]
        simp [halk]
      rw [hsp]
      exact halk
  show { (match alookup x.speaker mappings with
      | some newName =>
        { x with speaker := newName, original_speaker_id := some x.speaker }
      | none => x) with text := substituteAll mappings x.text } = x
  rw [htext]
  simp only [hxs]

/-- Witness for the amended C5 theorem: applying `SPEAKER_00 ↦ Jane`
twice to a segment whose text mentions `SPEAKER_00` equals applying it
once (the once-applied text `"hello Jane"` has no residual occurrence
of the key). -/
theorem apply_mappings_roundtrip_amended_witness :
    applySpeakerMappings (applySpeakerMappings
        [⟨0, 1, "hello SPEAKER_00", "SPEAKER_00", none⟩] [("SPEAKER_00", "Jane")])
      [("SPEAKER_00", "Jane")] =
    applySpeakerMappings [⟨0, 1, "hello SPEAKER_00", "SPEAKER_00", none⟩]
      [("SPEAKER_00", "Jane")] :=
  apply_mappings_roundtrip_amended _ _ (by decide) (by decide)

/-! ## Context Sampler: the segment-selection logic of
`SpeakerIdentifier._build_context_text` -/

/-- Python `list.index(seg)`: index of the first element equal to the
given one (every use in the sampler searches for an element of the
list, so the not-found branch is unreachable). -/
def indexOfSeg (seg : Seg) (l : List Seg) : ℕ := l.findIdx fun x => decide (x = seg)

/-- Python slice `l[a:b]` for `0 ≤ a ≤ b`. -/
def pySlice (l : List Seg) (a b : ℕ) : List Seg := (l.drop a).take (b - a)

/-- Interview-phase transition windows: for each segment of
`interview_segments[30:]` whose speaker differs from the previous one
(`prev_speaker` starts as `None`, so the first always differs), extend
the sample with `interview_segments[max(0, idx-1):idx+2]`. -/
def interviewTransitions (interview : List Seg) : List Seg :=
  ((interview.drop 30).foldl
    (fun (st : Option String × List Seg) seg =>
      if st.1 ≠ some seg.speaker then
        (some seg.speaker,
          st.2 ++ pySlice interview (indexOfSeg seg interview - 1)
            (indexOfSeg seg interview + 2))
      else (some seg.speaker, st.2))
    (none, [])).2

/-- Main-show transition windows: as for the interview phase but over
`main_show_segments[20:]`, capped at 15 windows by `transition_count`. -/
def mainShowTransitions (mainShow : List Seg) : List Seg :=
  ((mainShow.drop 20).foldl
    (fun (st : Option String × ℕ × List Seg) seg =>
      if st.1 ≠ some seg.speaker ∧ st.2.1 < 15 then
        (some seg.speaker, st.2.1 + 1,
          st.2.2 ++ pySlice mainShow (indexOfSeg seg mainShow - 1)
            (indexOfSeg seg mainShow + 2))
      else (some seg.speaker, st.2.1, st.2.2))
    (none, 0, [])).2.2

/-- Fallback sampling when the interview/main-show split is degenerate:
the first 50 segments plus, for the first occurrence of each distinct
speaker, the window `segments[max(0, idx-1):idx+3]`. -/
def fallbackSample (segments : List Seg) : List Seg :=
  (segments.foldl
    (fun (st : List String × List Seg) seg =>
      if seg.speaker ∈ st.1 then st
      else (seg.speaker :: st.1,
        st.2 ++ pySlice segments (indexOfSeg seg segments - 1)
          (indexOfSeg seg segments + 3)))
    ([], segments.take 50)).2

/-- The pre-deduplication `sampled_segments` list built by
`_build_context_text` for a large transcript: interview cutoff
`min(1800, total_duration * 0.4)` with
`total_duration = segments[-1]["start"]` (1800 when empty), intro
prefixes plus transition windows from both phases, or the fallback
sample when either phase is empty. -/
def samplePhase (segments : List Seg) : List Seg :=
  let totalDuration : ℚ :=
    match segments.getLast? with
    | some s => s.start
    | none => 1800
  let interviewCutoff := min 1800 (totalDuration * (2 / 5))
  let interview := segments.filter fun s => s.start ≤ interviewCutoff
  let mainShow := segments.filter fun s => interviewCutoff < s.start
  let fromInterview :=
    if interview ≠ [] then interview.take 30 ++ interviewTransitions interview else []
  let fromMain :=
    if mainShow ≠ [] then mainShow.take 20 ++ mainShowTransitions mainShow else []
  if interview = [] ∨ mainShow = [] then fallbackSample segments
  else fromInterview ++ fromMain

/-- The identity key used by the de-duplication pass:
`(seg["start"], seg["speaker"], seg["text"])`. -/
def segKey (s : Seg) : ℚ × String × String := (s.start, s.speaker, s.text)

/-- The `seen`-set loop removing duplicate `(start, speaker, text)`
keys while preserving order. -/
def dedupAux (seen : List (ℚ × String × String)) : List Seg → List Seg
  | [] => []
  | s :: rest =>
    if segKey s ∈ seen then dedupAux seen rest
    else s :: dedupAux (segKey s :: seen) rest

/-- De-duplicate by `(start, speaker, text)` keeping first occurrences. -/
def dedupByKey (l : List Seg) : List Seg := dedupAux [] l

/-- The episode's distinct speaker ids (`set(seg["speaker"] ...)`);
only its size is ever used. -/
def uniqueSpeakers (segments : List Seg) : List String :=
  (segments.map Seg.speaker).dedup

/-- The cap `max_segments = 150 if len(unique_speakers) > 10 else 200`. -/
def maxSegmentsCap (n : ℕ) : ℕ := if n > 10 then 150 else 200

/-- The `segments_to_use` selection of `_build_context_text`: every
segment verbatim for at most 6 distinct speakers, otherwise the sampled
list de-duplicated and truncated to the cap. -/
def buildContextSegments (segments : List Seg) : List Seg :=
  if (uniqueSpeakers segments).length > 6 then
    (dedupByKey (samplePhase segments)).take (maxSegmentsCap (uniqueSpeakers segments).length)
  else segments

/-- C6: with at most 6 distinct speakers the sampler uses every segment
verbatim, in order — no sampling, no omission. -/
theorem build_context_small_show (segments : List Seg)
    (h : (uniqueSpeakers segments).length ≤ 6) :
    buildContextSegments segments = segments := by
  rw [buildContextSegments, if_neg (by omega)]

/-- Witness for the C6 theorem: a two-speaker transcript is returned
unchanged. -/
theorem build_context_small_show_witness :
    buildContextSegments [⟨0, 1, "x", "A", none⟩, ⟨1, 2, "y", "B", none⟩] =
      [⟨0, 1, "x", "A", none⟩, ⟨1, 2, "y", "B", none⟩] :=
  build_context_small_show _ (by decide)

theorem dedupAux_sublist (l : List Seg) : ∀ seen, List.Sublist (dedupAux seen l) l := by
  induction l with
  | nil => intro seen; exact List.Sublist.refl _
  | cons s rest ih =>
    intro seen
    show List.Sublist (if segKey s ∈ seen then dedupAux seen rest
      else s :: dedupAux (segKey s :: seen) rest) (s :: rest)
    by_cases h : segKey s ∈ seen
    · rw [if_pos h]
      exact (ih seen).cons s
    · rw [if_neg h]
      exact (ih _).cons₂ s

theorem dedupAux_not_seen (l : List Seg) : ∀ seen t, t ∈ dedupAux seen l →
    segKey t ∉ seen := by
  induction l with
  | nil => intro seen t ht; simp [dedupAux] at ht
  | cons s rest ih =>
    intro seen t ht
    by_cases h : segKey s ∈ seen
    · rw [show dedupAux seen (s :: rest) = dedupAux seen rest from by
        rw [dedupAux, if_pos h]] at ht
      exact ih seen t ht
    · rw [show dedupAux seen (s :: rest) = s :: dedupAux (segKey s :: seen) rest from by
        rw [dedupAux, if_neg h]] at ht
      rcases List.mem_cons.mp ht with hts | hts
      · rw [hts]
        exact h
      · have := ih _ t hts
        intro hc
        exact this (List.mem_cons_of_mem _ hc)

theorem dedupAux_pairwise (l : List Seg) : ∀ seen,
    (dedupAux seen l).Pairwise fun a b => segKey a ≠ segKey b := by
  induction l with
  | nil => intro seen; exact List.Pairwise.nil
  | cons s rest ih =>
    intro seen
    show (if segKey s ∈ seen then dedupAux seen rest
      else s :: dedupAux (segKey s :: seen) rest).Pairwise _
    by_cases h : segKey s ∈ seen
    · rw [if_pos h]
      exact ih seen
    · rw [if_neg h]
      refine List.pairwise_cons.mpr ⟨?_, ih _⟩
      intro t ht
      have := dedupAux_not_seen rest _ t ht
      intro hc
      exact this (by rw [← hc]; exact List.mem_cons_self _ _)

theorem dedupAux_complete (l : List Seg) : ∀ seen s, s ∈ l →
    segKey s ∈ seen ∨ ∃ t ∈ dedupAux seen l, segKey t = segKey s := by
  induction l with
  | nil => intro seen s hs; simp at hs
  | cons u rest ih =>
    intro seen s hs
    by_cases h : segKey u ∈ seen
    · rw [show dedupAux seen (u :: rest) = dedupAux seen rest from by
        rw [dedupAux, if_pos h]]
      rcases List.mem_cons.mp hs with hsu | hsu
      · left
        rw [hsu]
        exact h
      · exact ih seen s hsu
    · rw [show dedupAux seen (u :: rest) = u :: dedupAux (segKey u :: seen) rest from by
        rw [dedupAux, if_neg h]]
      rcases List.mem_cons.mp hs with hsu | hsu
      · right
        exact ⟨u, List.mem_cons_self _ _, by rw [hsu]⟩
      · rcases ih (segKey u :: seen) s hsu with hseen | ⟨t, htmem, htkey⟩
        · rcases List.mem_cons.mp hseen with hk | hk
          · right
            exact ⟨u, List.mem_cons_self _ _, hk.symm⟩
          · left
            exact hk
        · right
          exact ⟨t, List.mem_cons_of_mem _ htmem, htkey⟩

theorem dedupAux_first (l : List Seg) : ∀ seen t, t ∈ dedupAux seen l →
    l.find? (fun u => decide (segKey u = segKey t)) = some t := by
  induction l with
  | nil => intro seen t ht; simp [dedupAux] at ht
  | cons s rest ih =>
    intro seen t ht
    by_cases h : segKey s ∈ seen
    · rw [show dedupAux seen (s :: rest) = dedupAux seen rest from by
        rw [dedupAux, if_pos h]] at ht
      have hne : segKey s ≠ segKey t := by
        intro hc
        exact dedupAux_not_seen rest seen t ht (hc ▸ h)
      rw [List.find?_cons_of_neg _ (by simpa using hne)]
      exact ih seen t ht
    · rw [show dedupAux seen (s :: rest) = s :: dedupAux (segKey s :: seen) rest from by
        rw [dedupAux, if_neg h]] at ht
      rcases List.mem_cons.mp ht with hts | hts
      · rw [hts]
        exact List.find?_cons_of_pos _ (by simp)
      · have hne : segKey s ≠ segKey t := by
          intro hc
          exact dedupAux_not_seen rest _ t hts (by rw [← hc]; exact List.mem_cons_self _ _)
        rw [List.find?_cons_of_neg _ (by simpa using hne)]
        exact ih _ t hts

/-- C7: with more than 10 distinct speakers the sampler selects at most
150 segments; with 7 to 10, at most 200; the selection is the sampled
list de-duplicated before truncation; and the de-duplication pass keeps,
in order, exactly the first occurrence of each `(start, speaker, text)`
identity key (a key-nodup sublist containing a representative of every
input key, each selected element being the first of its key). -/
theorem build_context_bounds_and_dedup (segments : List Seg) :
    ((uniqueSpeakers segments).length > 10 →
      (buildContextSegments segments).length ≤ 150) ∧
    (7 ≤ (uniqueSpeakers segments).length → (uniqueSpeakers segments).length ≤ 10 →
      (buildContextSegments segments).length ≤ 200) ∧
    ((uniqueSpeakers segments).length > 6 →
      buildContextSegments segments =
        (dedupByKey (samplePhase segments)).take
          (maxSegmentsCap (uniqueSpeakers segments).length)) ∧
    ∀ l : List Seg,
      List.Sublist (dedupByKey l) l ∧
      ((dedupByKey l).Pairwise fun a b => segKey a ≠ segKey b) ∧
      (∀ s ∈ l, ∃ t ∈ dedupByKey l, segKey t = segKey s) ∧
      (∀ t ∈ dedupByKey l, l.find? (fun u => decide (segKey u = segKey t)) = some t) := by
  refine ⟨?_, ?_, ?_, ?_⟩
  · intro h
    rw [buildContextSegments, if_pos (by omega), maxSegmentsCap, if_pos h]
    exact List.length_take_le _ _
  · intro h7 h10
    rw [buildContextSegments, if_pos (by omega), maxSegmentsCap, if_neg (by omega)]
    exact List.length_take_le _ _
  · intro h
    rw [buildContextSegments, if_pos h]
  · intro l
    refine ⟨dedupAux_sublist l [], dedupAux_pairwise l [], ?_,
      fun t ht => dedupAux_first l [] t ht⟩
    intro s hs
    rcases dedupAux_complete l [] s hs with h | h
    · simp at h
    · exact h

/-- Witness for the C7 theorem: an 11-speaker transcript is sampled to
at most 150 segments and an 8-speaker transcript to at most 200. -/
theorem build_context_bounds_witness :
    10 < (uniqueSpeakers [⟨0, 1, "t", "S01", none⟩, ⟨1, 2, "t", "S02", none⟩,
      ⟨2, 3, "t", "S03", none⟩, ⟨3, 4, "t", "S04", none⟩, ⟨4, 5, "t", "S05", none⟩,
      ⟨5, 6, "t", "S06", none⟩, ⟨6, 7, "t", "S07", none⟩, ⟨7, 8, "t", "S08", none⟩,
      ⟨8, 9, "t", "S09", none⟩, ⟨9, 10, "t", "S10", none⟩,
      ⟨10, 11, "t", "S11", none⟩]).length ∧
    (buildContextSegments [⟨0, 1, "t", "S01", none⟩, ⟨1, 2, "t", "S02", none⟩,
      ⟨2, 3, "t", "S03", none⟩, ⟨3, 4, "t", "S04", none⟩, ⟨4, 5, "t", "S05", none⟩,
      ⟨5, 6, "t", "S06", none⟩, ⟨6, 7, "t", "S07", none⟩, ⟨7, 8, "t", "S08", none⟩,
      ⟨8, 9, "t", "S09", none⟩, ⟨9, 10, "t", "S10", none⟩,
      ⟨10, 11, "t", "S11", none⟩]).length ≤ 150 ∧
    (buildContextSegments [⟨0, 1, "t", "S01", none⟩, ⟨1, 2, "t", "S02", none⟩,
      ⟨2, 3, "t", "S03", none⟩, ⟨3, 4, "t", "S04", none⟩, ⟨4, 5, "t", "S05", none⟩,
      ⟨5, 6, "t", "S06", none⟩, ⟨6, 7, "t", "S07", none⟩,
      ⟨7, 8, "t", "S08", none⟩]).length ≤ 200 := by
  refine ⟨by decide, (build_context_bounds_and_dedup _).1 (by decide),
    (build_context_bounds_and_dedup _).2.1 (by decide) (by decide)⟩

/-! ## Episode Pipeline Orchestrator:
`TranscriptionPipeline.process_episode` / `_episode_already_transcribed` -/

/-- Episode attributes used by the idempotency check (`title`,
`podcast_name`, `episode_identifier`). -/
structure Episode where
  title : String
  podcast_name : Option String
  episode_identifier : Option String
deriving DecidableEq, Repr

/-- Python truthiness fallback `x or default` on an optional string:
both `None` and the empty string fall back. -/
def pyOrStr (v : Option String) (dflt : String) : String :=
  match v with
  | some s => if s = "" then dflt else s
  | none => dflt

/-- The characters kept by `TranscriptExporter._sanitize_filename`. -/
def safeChars : List Char :=
  "abcdefghijklmnopqrstuvwxyzABCDEFGHIJKLMNOPQRSTUVWXYZ0123456789-_".toList

/-- Embedding of `_sanitize_filename`: map every unsafe character to `_`, then keep
the first 100 characters. -/
def sanitizeFilename (s : String) : String :=
  String.mk ((s.toList.map fun c => if c ∈ safeChars then c else '_').take 100)

/-- The episode directory
`<base>/<sanitized podcast name or "Unknown_Podcast">/<sanitized title>`. -/
def episodeDir (baseOutputDir : String) (ep : Episode) : String :=
  baseOutputDir ++ "/" ++ sanitizeFilename (pyOrStr ep.podcast_name "Unknown_Podcast")
    ++ "/" ++ sanitizeFilename ep.title

/-- The stem `filename_prefix = episode.episode_identifier or safe_title`. -/
def filenameStem (ep : Episode) : String :=
  pyOrStr ep.episode_identifier (sanitizeFilename ep.title)

/-- The three canonical transcription artifacts checked by
`_episode_already_transcribed`. -/
def transcriptionFiles (stem : String) : List String :=
  [stem ++ "_raw.json", stem ++ "_diarized.json", stem ++ "_enhanced.json"]

/-- Embedding of `_episode_already_transcribed`: true when any of the three artifact
files exists at the episode's expected output path (the explicit
`output_dir` falling back to the configured base directory). -/
def episodeAlreadyTranscribed (fsExists : String → Bool) (ep : Episode)
    (outputDir : Option String) (configBaseDir : String) : Bool :=
  (transcriptionFiles (filenameStem ep)).any fun f =>
    fsExists (episodeDir (pyOrStr outputDir configBaseDir) ep ++ "/" ++ f)

/-- The side-effecting stages of `process_episode`, in order. -/
inductive PipelineStep where
  | downloadAudio
  | transcribeAndDiarize
  | identifySpeakersStage
  | exportAllFormats
deriving DecidableEq, Repr

/-- Embedding of `TranscriptionPipeline.process_episode` as a step trace: when the
idempotency check fires the episode is reported as already processed
(`true`) and no stage runs (the output tree is untouched); otherwise the
four stages run in order. -/
def processEpisode (fsExists : String → Bool) (ep : Episode)
    (outputDir : Option String) (configBaseDir : String) :
    Bool × List PipelineStep :=
  if episodeAlreadyTranscribed fsExists ep outputDir configBaseDir then
    (true, [])
  else
    (false, [PipelineStep.downloadAudio, PipelineStep.transcribeAndDiarize,
      PipelineStep.identifySpeakersStage, PipelineStep.exportAllFormats])

/-- C8: if any of the three artifacts `<stem>_raw.json`,
`<stem>_diarized.json`, `<stem>_enhanced.json` exists at the episode's
expected output path, `process_episode` reports the episode as already
processed and performs no pipeline step. -/
theorem process_episode_skip (fsExists : String → Bool) (ep : Episode)
    (outputDir : Option String) (configBaseDir : String)
    (h : ∃ f ∈ transcriptionFiles (filenameStem ep),
      fsExists (episodeDir (pyOrStr outputDir configBaseDir) ep ++ "/" ++ f) = true) :
    processEpisode fsExists ep outputDir configBaseDir = (true, []) := by
  rw [processEpisode, if_pos]
  rw [episodeAlreadyTranscribed, List.any_eq_true]
  obtain ⟨f, hf, hfs⟩ := h
  exact ⟨f, hf, hfs⟩

/-- Witness for the C8 theorem: a file system containing exactly
`out/MyPod/Ep_One/ep1_diarized.json` makes the orchestrator skip the
episode titled `"Ep One"` of podcast `"MyPod"` with identifier `"ep1"`. -/
theorem process_episode_skip_witness :
    processEpisode (fun p => p == "out/MyPod/Ep_One/ep1_diarized.json")
      ⟨"Ep One", some "MyPod", some "ep1"⟩ (some "out") "cfg_base" = (true, []) :=
  process_episode_skip _ _ _ _ (by decide)

/-! ## Speaker identification entry points:
`SpeakerIdentifier.identify_speakers` and `MockSpeakerIdentifier` -/

/-- Outcome of `_query_llm_for_speakers`' interaction with the oracle:
the call raised (caught, logged, `{}` returned), the response contained
no parsable JSON mapping (`{}` returned), or a validated mapping was
parsed. -/
inductive OracleOutcome where
  | raises
  | unparsable
  | parsed (validated : List (String × String))

/-- The mapping `_query_llm_for_speakers` hands back for each outcome. -/
def queryLLMForSpeakers : OracleOutcome → List (String × String)
  | OracleOutcome.raises => []
  | OracleOutcome.unparsable => []
  | OracleOutcome.parsed validated => validated

/-- Embedding of `SpeakerIdentifier.identify_speakers`: build the mapping from the
oracle outcome, apply it to the segments, and return both (any
exception is caught and yields the input segments with an empty
mapping, which coincides with applying the empty mapping). -/
def identifySpeakers (segments : List Seg) (outcome : OracleOutcome) :
    List Seg × List (String × String) :=
  (applySpeakerMappings segments (queryLLMForSpeakers outcome),
    queryLLMForSpeakers outcome)

/-- The pipeline constructor's choice (`if self.config.llm.api_key:`):
the mock identifier is used exactly when no API key is configured
(Python truthiness: the empty string is falsy). -/
def usesMockIdentifier (apiKey : String) : Bool := apiKey == ""

/-- Embedding of `MockSpeakerIdentifier._apply_speaker_mappings`: rename the speaker
and record the original id when mapped; no text substitution at all. -/
def mockApplySpeakerMappings (segments : List Seg)
    (mappings : List (String × String)) : List Seg :=
  segments.map fun seg =>
    match alookup seg.speaker mappings with
    | some newName =>
      { seg with speaker := newName, original_speaker_id := some seg.speaker }
    | none => seg

/-- Python `sorted(unique_speakers)`: the distinct speaker ids in ascending
lexicographic order. -/
def sortedUniqueSpeakers (segments : List Seg) : List String :=
  (uniqueSpeakers segments).mergeSort fun a b => decide (a ≤ b)

/-- The mock identifier's mapping:
`{speaker: f"Speaker_{i}" for i, speaker in enumerate(sorted(unique_speakers), 1)}`. -/
def mockMappings (segments : List Seg) : List (String × String) :=
  (sortedUniqueSpeakers segments).enum.map fun p =>
    (p.2, "Speaker_" ++ toString (p.1 + 1))

/-- Embedding of `MockSpeakerIdentifier.identify_speakers`. -/
def mockIdentifySpeakers (segments : List Seg) :
    List Seg × List (String × String) :=
  (mockApplySpeakerMappings segments (mockMappings segments), mockMappings segments)

theorem applySpeakerMappings_nil (segments : List Seg) :
    applySpeakerMappings segments [] = segments := by
  apply map_id_of_mem
  intro x hx
  rfl

/-- C9: speaker naming never fails the pipeline: when the oracle raises
or returns unparsable content, `identify_speakers` returns the input
segments unchanged together with an empty mapping; when no oracle
credential is configured the pipeline uses the mock identifier, whose
deterministic mapping assigns `Speaker_1, Speaker_2, …` to the
episode's distinct speaker_ids in ascending lexicographic order. -/
theorem identify_speakers_failure_and_fallback :
    (∀ (segments : List Seg) (o : OracleOutcome),
      o = OracleOutcome.raises ∨ o = OracleOutcome.unparsable →
      identifySpeakers segments o = (segments, [])) ∧
    usesMockIdentifier "" = true ∧
    ∀ segments : List Seg,
      ((mockMappings segments).map Prod.fst).Sorted (· ≤ ·) ∧
      ((mockMappings segments).map Prod.fst).Perm (uniqueSpeakers segments) ∧
      ∀ (i : ℕ) (p : String × String), (mockMappings segments)[i]? = some p →
        p.2 = "Speaker_" ++ toString (i + 1) := by
  refine ⟨?_, rfl, ?_⟩
  · rintro segments o (rfl | rfl) <;>
      simp [identifySpeakers, queryLLMForSpeakers, applySpeakerMappings_nil]
  · intro segments
    have hfst : (mockMappings segments).map Prod.fst = sortedUniqueSpeakers segments := by
      rw [mockMappings, List.map_map]
      have : (Prod.fst ∘ fun p : ℕ × String => (p.2, "Speaker_" ++ toString (p.1 + 1))) =
          Prod.snd := by
        funext p
        rfl
      rw [this, List.enum_map_snd]
    refine ⟨?_, ?_, ?_⟩
    · rw [hfst, sortedUniqueSpeakers]
      have htrans : ∀ a b c : String, decide (a ≤ b) = true → decide (b ≤ c) = true →
          decide (a ≤ c) = true := by
        intro a b c h1 h2
        simp only [decide_eq_true_eq] at h1 h2 ⊢
        exact le_trans h1 h2
      have htot : ∀ a b : String, (decide (a ≤ b) || decide (b ≤ a)) = true := by
        intro a b
        simpa using le_total a b
      exact (List.sorted_mergeSort htrans htot (uniqueSpeakers segments)).imp
        fun h => of_decide_eq_true h
    · rw [hfst, sortedUniqueSpeakers]
      exact List.mergeSort_perm _ _
    · intro i p hp
      rw [mockMappings, List.getElem?_map, List.getElem?_enum] at hp
      cases hs : (sortedUniqueSpeakers segments)[i]? with
      | none => rw [hs] at hp; simp at hp
      | some a =>
        rw [hs] at hp
        simp only [Option.map_some'] at hp
        injection hp with hp
        rw [← hp]

/-- Witness for the C9 theorem: an oracle failure returns the single
input segment unchanged with the empty mapping. -/
theorem identify_speakers_failure_witness :
    identifySpeakers [⟨0, 1, "hi", "SPEAKER_00", none⟩] OracleOutcome.raises =
      ([⟨0, 1, "hi", "SPEAKER_00", none⟩], []) :=
  identify_speakers_failure_and_fallback.1 _ _ (Or.inl rfl)

/-- C10: the mock applier is a frame on everything but the speaker
fields: text, start and end are preserved verbatim for every segment,
the speaker is renamed (with the original id recorded) exactly when
mapped, an unmapped segment is returned identically — and, unlike the
oracle-backed applier, no substitution happens inside the text, as the
contrasting concrete run shows. -/
theorem mock_apply_is_frame (segments : List Seg)
    (mappings : List (String × String)) :
    (mockApplySpeakerMappings segments mappings).length = segments.length ∧
    (∀ (i : ℕ) (seg : Seg), segments[i]? = some seg →
      ∃ o : Seg, (mockApplySpeakerMappings segments mappings)[i]? = some o ∧
        o.text = seg.text ∧ o.start = seg.start ∧ o.stop = seg.stop ∧
        (∀ name, alookup seg.speaker mappings = some name →
          o.speaker = name ∧ o.original_speaker_id = some seg.speaker) ∧
        (alookup seg.speaker mappings = none → o = seg)) ∧
    (applySpeakerMappings [⟨0, 1, "SPEAKER_00 said hi", "SPEAKER_00", none⟩]
        [("SPEAKER_00", "Jane")]).map Seg.text ≠
      (mockApplySpeakerMappings [⟨0, 1, "SPEAKER_00 said hi", "SPEAKER_00", none⟩]
        [("SPEAKER_00", "Jane")]).map Seg.text := by
  refine ⟨by simp [mockApplySpeakerMappings], ?_, by decide⟩
  intro i seg hseg
  obtain ⟨hi, hseg_eq⟩ := List.getElem?_eq_some.mp hseg
  have hi' : i < (mockApplySpeakerMappings segments mappings).length := by
    rw [mockApplySpeakerMappings, List.length_map]
    exact hi
  refine ⟨(mockApplySpeakerMappings segments mappings).get ⟨i, hi'⟩,
    List.getElem?_eq_some.mpr ⟨hi', rfl⟩, ?_⟩
  have hout : (mockApplySpeakerMappings segments mappings).get ⟨i, hi'⟩ =
      (match alookup seg.speaker mappings with
       | some newName =>
         { seg with speaker := newName, original_speaker_id := some seg.speaker }
       | none => seg) := by
    simp only [mockApplySpeakerMappings, List.get_eq_getElem, List.getElem_map, hseg_eq]
  rw [hout]
  cases halk : alookup seg.speaker mappings with
  | some name =>
    refine ⟨rfl, rfl, rfl, ?_, ?_⟩
    · intro nm hnm
      injection hnm with hnm
      rw [← hnm]
      exact ⟨rfl, rfl⟩
    · intro hnone
      exact absurd hnone (by simp)
  | none =>
    exact ⟨rfl, rfl, rfl, fun nm hnm => absurd hnm (by simp), fun _ => rfl⟩

/-- Witness for the C10 theorem: the mock applier renames the speaker
of a mapped segment but leaves its text — which mentions the speaker id
— untouched. -/
theorem mock_apply_is_frame_witness :
    ∃ o : Seg, (mockApplySpeakerMappings
        [⟨0, 1, "SPEAKER_00 said hi", "SPEAKER_00", none⟩]
        [("SPEAKER_00", "Jane")])[0]? = some o ∧
      o.text = "SPEAKER_00 said hi" ∧ o.speaker = "Jane" ∧
      o.original_speaker_id = some "SPEAKER_00" := by
  have h := (mock_apply_is_frame [⟨0, 1, "SPEAKER_00 said hi", "SPEAKER_00", none⟩]
    [("SPEAKER_00", "Jane")]).2.1 0 ⟨0, 1, "SPEAKER_00 said hi", "SPEAKER_00", none⟩ rfl
  obtain ⟨o, ho, htext, -, -, hsome, -⟩ := h
  have hs := hsome "Jane" (by decide)
  exact ⟨o, ho, htext, hs.1, hs.2⟩
